import Mathlib

/-!
# Verification of the Dairy Expense Tracker core (src/src/App.jsx)

This file is a shallow embedding of the core logic of the Dairy Expense
Tracker application, translated from `src/src/App.jsx`:

* date keys are the `YYYY-MM-DD` strings the source manipulates, compared
  with the JavaScript relational operators on strings (lexicographic by
  code unit); we embed that comparison as `keyLe`;
* rate records and entries mirror the objects stored in the `rates` and
  `entries` React state arrays;
* numeric fields (`kg`, `cow`, `buffalo`) are embedded as exact rationals
  (`ℚ`), following the specification's numeric semantics ("all monetary
  and weight values are decimal ... internal accumulation must use full
  precision"); a separate model (`JSNumber`) keeps the IEEE special values
  NaN and the infinities where the *validation* behaviour of the source
  depends on them;
* the calendar-grid helper `daysMatrix` is embedded over a model of the
  JavaScript `Date` object restricted to the operations the source uses
  (civil calendar with day-level precision, month/day normalization, and
  `getDay`/`getDate`/`setDate`).
-/

/-! ## Date keys

JavaScript compares date-key strings with `<=`, which is lexicographic
comparison by UTF-16 code unit.  For the `YYYY-MM-DD` keys the source
uses, this coincides with lexicographic comparison of the code points of
the characters, which is what we embed here. -/

/-- The code points of a string's characters, in order. -/
def strUnits (s : String) : List Nat := s.data.map Char.toNat

/-- Lexicographic `≤` on unit lists (JS string relational comparison). -/
def unitsLe : List Nat → List Nat → Bool
  | [], _ => true
  | _ :: _, [] => false
  | a :: as, b :: bs => if a = b then unitsLe as bs else decide (a ≤ b)

/-- JS `a <= b` on strings, embedded via code points. -/
def keyLe (a b : String) : Bool := unitsLe (strUnits a) (strUnits b)

/-- JS `a < b` on strings: `¬ (b <= a)`. -/
def keyLt (a b : String) : Bool := !(keyLe b a)

theorem unitsLe_total (a b : List Nat) : unitsLe a b = true ∨ unitsLe b a = true := by
  induction a generalizing b with
  | nil => left; rfl
  | cons x xs ih =>
    cases b with
    | nil => right; rfl
    | cons y ys =>
      by_cases hxy : x = y
      · subst hxy
        rcases ih ys with h | h
        · left; simpa [unitsLe] using h
        · right; simpa [unitsLe] using h
      · rcases Nat.le_total x y with h | h
        · left; simp [unitsLe, hxy, h]
        · right
          have hyx : y ≠ x := fun he => hxy he.symm
          simp [unitsLe, hyx, h]

theorem unitsLe_trans {a b c : List Nat} (hab : unitsLe a b = true)
    (hbc : unitsLe b c = true) : unitsLe a c = true := by
  induction a generalizing b c with
  | nil => rfl
  | cons x xs ih =>
    cases b with
    | nil => simp [unitsLe] at hab
    | cons y ys =>
      cases c with
      | nil => simp [unitsLe] at hbc
      | cons z zs =>
        by_cases hxy : x = y <;> by_cases hyz : y = z
        · subst hxy; subst hyz
          simp only [unitsLe, if_pos rfl] at hab hbc ⊢
          exact ih hab hbc
        · subst hxy
          simp only [unitsLe, if_pos rfl] at hab
          simpa [unitsLe, hyz] using hbc
        · subst hyz
          simp only [unitsLe, if_pos rfl] at hbc
          simpa [unitsLe, hxy] using hab
        · simp only [unitsLe, if_neg hxy, decide_eq_true_eq] at hab
          simp only [unitsLe, if_neg hyz, decide_eq_true_eq] at hbc
          have hxz : x ≠ z := by omega
          simp only [unitsLe, if_neg hxz, decide_eq_true_eq]
          omega

theorem keyLe_total (a b : String) : keyLe a b = true ∨ keyLe b a = true :=
  unitsLe_total _ _

theorem keyLe_trans {a b c : String} (hab : keyLe a b = true)
    (hbc : keyLe b c = true) : keyLe a c = true :=
  unitsLe_trans hab hbc

theorem keyLe_of_not_keyLe {a b : String} (h : ¬ keyLe a b = true) :
    keyLe b a = true := by
  rcases keyLe_total a b with h' | h'
  · exact absurd h' h
  · exact h'

/-! ## Core data model

`MilkType` embeds the milk-type ids `"cow"` / `"buffalo"` used by the
source (`MILK_TYPES`); the source branches with `e.type === "cow"`. -/

inductive MilkType where
  | cow
  | buffalo
deriving DecidableEq, Repr

/-- A rate record as stored in the `rates` array:
`{ effectiveFrom, cow, buffalo }` (rates in ₹/kg, embedded as `ℚ`). -/
structure RateRecord where
  effectiveFrom : String
  cow : ℚ
  buffalo : ℚ
deriving DecidableEq, Repr

/-- An entry as stored in the `entries` array: `{ date, type, kg }`. -/
structure Entry where
  date : String
  type : MilkType
  kg : ℚ
deriving DecidableEq, Repr

/-- The mutable application state relevant to the core: the entry ledger
and the rate timeline (`entries` / `rates` React state). -/
structure AppState where
  entries : List Entry
  rates : List RateRecord
deriving DecidableEq, Repr

/-! ## Rate timeline lookups (source lines 80–92)

`[...rates].sort((a, b) => a.effectiveFrom.localeCompare(b.effectiveFrom))`
is a stable sort by effective date; we embed it as a stable insertion
sort (`insertSorted` places a new element after every element whose key
is `≤` its own, so elements with equal keys keep their relative order,
as ECMAScript's stable `Array.prototype.sort` does). -/

/-- Insert `r` into `l` after every element whose key is `≤ key r`. -/
def insertSorted {α : Type} (key : α → String) (r : α) : List α → List α
  | [] => [r]
  | x :: xs =>
    if keyLe (key x) (key r) then x :: insertSorted key r xs else r :: x :: xs

/-- Stable sort of `xs` by the string key `key`. -/
def sortByKey {α : Type} (key : α → String) (xs : List α) : List α :=
  xs.foldl (fun acc r => insertSorted key r acc) []

theorem mem_insertSorted {α : Type} (key : α → String) (r : α) (l : List α) (x : α) :
    x ∈ insertSorted key r l ↔ x = r ∨ x ∈ l := by
  induction l with
  | nil => simp [insertSorted]
  | cons y ys ih =>
    by_cases h : keyLe (key y) (key r) = true
    · simp only [insertSorted, if_pos h, List.mem_cons, ih]
      tauto
    · simp only [insertSorted, if_neg h, List.mem_cons]

theorem pairwise_insertSorted {α : Type} (key : α → String) (r : α) (l : List α)
    (hl : l.Pairwise (fun a b => keyLe (key a) (key b) = true)) :
    (insertSorted key r l).Pairwise (fun a b => keyLe (key a) (key b) = true) := by
  induction l with
  | nil => simp [insertSorted]
  | cons y ys ih =>
    rcases List.pairwise_cons.mp hl with ⟨hy, hys⟩
    by_cases h : keyLe (key y) (key r) = true
    · have heq : insertSorted key r (y :: ys) = y :: insertSorted key r ys := by
        simp [insertSorted, h]
      rw [heq]
      refine List.pairwise_cons.mpr ⟨?_, ih hys⟩
      intro z hz
      rcases (mem_insertSorted key r ys z).mp hz with hz | hz
      · subst hz; exact h
      · exact hy z hz
    · have heq : insertSorted key r (y :: ys) = r :: y :: ys := by
        simp [insertSorted, h]
      rw [heq]
      refine List.pairwise_cons.mpr ⟨?_, hl⟩
      intro z hz
      have hr : keyLe (key r) (key y) = true := keyLe_of_not_keyLe h
      rcases List.mem_cons.mp hz with hz | hz
      · subst hz; exact hr
      · exact keyLe_trans hr (hy z hz)

theorem mem_sortByKey {α : Type} (key : α → String) (xs : List α) (x : α) :
    x ∈ sortByKey key xs ↔ x ∈ xs := by
  suffices h : ∀ acc, x ∈ xs.foldl (fun acc r => insertSorted key r acc) acc ↔
      x ∈ acc ∨ x ∈ xs by
    simpa [sortByKey] using h []
  induction xs with
  | nil => simp
  | cons y ys ih =>
    intro acc
    simp only [List.foldl_cons, ih, mem_insertSorted, List.mem_cons]
    tauto

theorem pairwise_sortByKey {α : Type} (key : α → String) (xs : List α) :
    (sortByKey key xs).Pairwise (fun a b => keyLe (key a) (key b) = true) := by
  suffices h : ∀ acc, acc.Pairwise (fun a b => keyLe (key a) (key b) = true) →
      (xs.foldl (fun acc r => insertSorted key r acc) acc).Pairwise
        (fun a b => keyLe (key a) (key b) = true) by
    exact h [] (by simp)
  induction xs with
  | nil => intro acc hacc; simpa using hacc
  | cons y ys ih =>
    intro acc hacc
    exact ih _ (pairwise_insertSorted key y acc hacc)

/-- `sortedRates`: the rate timeline sorted (stably) by `effectiveFrom`. -/
def sortedRates (rates : List RateRecord) : List RateRecord :=
  sortByKey (fun r => r.effectiveFrom) rates

/-- `latestRate = sortedRates[sortedRates.length - 1]` (undefined on an
empty timeline, embedded as `none`). -/
def latestRate (rates : List RateRecord) : Option RateRecord :=
  (sortedRates rates).getLast?

/-- The scan loop inside `rateForDate`: walk the sorted records, remember
the last one with `effectiveFrom <= dateKey`, and break at the first one
beyond `dateKey`. -/
def rateScan (dateKey : String) : List RateRecord → Option RateRecord → Option RateRecord
  | [], found => found
  | r :: rest, found =>
    if keyLe r.effectiveFrom dateKey then rateScan dateKey rest (some r) else found

/-- `rateForDate(dateKey)` (source lines 86–92): the record in effect on
`dateKey`, or `none`. -/
def rateForDate (rates : List RateRecord) (dateKey : String) : Option RateRecord :=
  rateScan dateKey (sortedRates rates) none

/-! ## Insert operations (source lines 102–122)

The source rejects an invalid insert by returning early from the handler
without calling the state setter, so the React state is untouched; we
embed each operation as a function from the prior state to the new state
paired with an optional error.  The error taxonomy follows the
specification (§7): `validationError` for malformed input (including a
non-increasing rate effective date) and `rateMissingError` for an entry
whose date has no rate coverage. -/

inductive InsertError where
  | validationError
  | rateMissingError
deriving DecidableEq, Repr

/-- The entry dialog draft after `Number(draft.kg)` conversion.  In this
rational model `isNaN` is identically false (see `JSNumber` below for
the model with IEEE special values). -/
structure EntryDraft where
  date : String
  type : MilkType
  kg : ℚ
deriving DecidableEq, Repr

/-- The rate dialog draft after `Number(...)` conversion of both rates. -/
structure RateDraft where
  effectiveFrom : String
  cow : ℚ
  buffalo : ℚ
deriving DecidableEq, Repr

/-- `addEntry(draft)` (source lines 102–109):
`if (!clean.date || isNaN(clean.kg) || clean.kg <= 0) return;` then
`if (!rateForDate(clean.date)) { alert(...); return; }` then
`setEntries(cur => [...cur, clean])`. -/
def addEntry (s : AppState) (draft : EntryDraft) : AppState × Option InsertError :=
  let clean : Entry := ⟨draft.date, draft.type, draft.kg⟩
  if clean.date = "" ∨ clean.kg ≤ 0 then
    (s, some InsertError.validationError)
  else if (rateForDate s.rates clean.date).isNone then
    (s, some InsertError.rateMissingError)
  else
    ({ s with entries := s.entries ++ [clean] }, none)

/-- `addRate(draft)` (source lines 111–122):
`if (!clean.effectiveFrom || isNaN(clean.cow) || isNaN(clean.buffalo) || clean.cow <= 0 || clean.buffalo <= 0) { alert(...); return; }`
then `if (latestRate && clean.effectiveFrom <= latestRate.effectiveFrom) { alert(...); return; }`
then `setRates(cur => [...cur, clean])`. -/
def addRate (s : AppState) (draft : RateDraft) : AppState × Option InsertError :=
  let clean : RateRecord := ⟨draft.effectiveFrom, draft.cow, draft.buffalo⟩
  if clean.effectiveFrom = "" ∨ clean.cow ≤ 0 ∨ clean.buffalo ≤ 0 then
    (s, some InsertError.validationError)
  else
    match latestRate s.rates with
    | some l =>
      if keyLe clean.effectiveFrom l.effectiveFrom then
        (s, some InsertError.validationError)
      else
        ({ s with rates := s.rates ++ [clean] }, none)
    | none => ({ s with rates := s.rates ++ [clean] }, none)

/-! ## Aggregations (source lines 124–148) -/

/-- The result record of `totals`: `{ cowKg, bufKg, kg: cowKg + bufKg, cost }`. -/
structure Totals where
  cowKg : ℚ
  bufKg : ℚ
  kg : ℚ
  cost : ℚ
deriving DecidableEq, Repr

/-- One iteration of the `totals` loop (source lines 126–132): resolve
the rate for the entry's date; `if (!r) continue;`; otherwise add the
weight to the matching kg accumulator and `perKg * e.kg` to the cost. -/
def totalsStep (rates : List RateRecord) (acc : ℚ × ℚ × ℚ) (e : Entry) : ℚ × ℚ × ℚ :=
  match rateForDate rates e.date with
  | none => acc
  | some r =>
    match e.type with
    | MilkType.cow => (acc.1 + e.kg, acc.2.1, acc.2.2 + r.cow * e.kg)
    | MilkType.buffalo => (acc.1, acc.2.1 + e.kg, acc.2.2 + r.buffalo * e.kg)

/-- `totals` (source lines 124–134). -/
def totals (entries : List Entry) (rates : List RateRecord) : Totals :=
  let acc := entries.foldl (totalsStep rates) (0, 0, 0)
  ⟨acc.1, acc.2.1, acc.1 + acc.2.1, acc.2.2⟩

/-- A per-day summary bucket: `{ cowKg: 0, bufKg: 0, cost: 0 }` initial. -/
structure DaySum where
  cowKg : ℚ
  bufKg : ℚ
  cost : ℚ
deriving DecidableEq, Repr

/-- `map.get(key)` on a JavaScript `Map` embedded as an insertion-ordered
association list: the value at the first (only) occurrence of the key. -/
def mapGet (m : List (String × DaySum)) (k : String) : Option DaySum :=
  match m with
  | [] => none
  | p :: rest => if p.1 = k then some p.2 else mapGet rest k

/-- `map.set(key, v)`: replace in place if the key is present, else
append (JavaScript `Map` preserves the original insertion position). -/
def mapSet (m : List (String × DaySum)) (k : String) (v : DaySum) : List (String × DaySum) :=
  match m with
  | [] => [(k, v)]
  | p :: rest => if p.1 = k then (k, v) :: rest else p :: mapSet rest k v

/-- One iteration of the `dayMap` loop (source lines 139–146):
`const perKg = e.type === "cow" ? r?.cow ?? 0 : r?.buffalo ?? 0;` —
an unresolved rate contributes a unit price of `0` — then fold the
entry's weight and `perKg * e.kg` into its date's bucket. -/
def dayStep (rates : List RateRecord) (m : List (String × DaySum)) (e : Entry) :
    List (String × DaySum) :=
  let r := rateForDate rates e.date
  let perKg : ℚ :=
    match e.type with
    | MilkType.cow => (r.map (fun rr => rr.cow)).getD 0
    | MilkType.buffalo => (r.map (fun rr => rr.buffalo)).getD 0
  let obj := (mapGet m e.date).getD ⟨0, 0, 0⟩
  let obj1 :=
    match e.type with
    | MilkType.cow => { obj with cowKg := obj.cowKg + e.kg }
    | MilkType.buffalo => { obj with bufKg := obj.bufKg + e.kg }
  mapSet m e.date { obj1 with cost := obj1.cost + perKg * e.kg }

/-- `dayMap` (source lines 137–148), as a function of the entry list it
folds over (the component applies it to the selected month's entries). -/
def dayMap (entries : List Entry) (rates : List RateRecord) : List (String × DaySum) :=
  entries.foldl (dayStep rates) []

/-! ## JavaScript number semantics for validation (source lines 102–122)

The validation checks `isNaN(x)` and `x <= 0` run on JavaScript numbers,
which include `NaN` and the infinities.  `JSNumber` embeds exactly the
distinctions those two checks observe: an exact finite value, the two
infinities, and `NaN`.  `addRateJS` / `addEntryJS` are the same source
functions as `addRate` / `addEntry`, embedded over `JSNumber` instead of
`ℚ` so that the behaviour on non-finite input is visible. -/

inductive JSNumber where
  | num (q : ℚ)
  | posInf
  | negInf
  | nan
deriving DecidableEq, Repr

/-- `isNaN(x)`. -/
def jsIsNaN : JSNumber → Bool
  | JSNumber.nan => true
  | _ => false

/-- `x <= 0`: comparisons with `NaN` are false; `Infinity <= 0` is false;
`-Infinity <= 0` is true. -/
def jsLeZero : JSNumber → Bool
  | JSNumber.num q => decide (q ≤ 0)
  | JSNumber.posInf => false
  | JSNumber.negInf => true
  | JSNumber.nan => false

structure RateRecordJS where
  effectiveFrom : String
  cow : JSNumber
  buffalo : JSNumber
deriving DecidableEq, Repr

structure RateDraftJS where
  effectiveFrom : String
  cow : JSNumber
  buffalo : JSNumber
deriving DecidableEq, Repr

structure EntryJS where
  date : String
  type : MilkType
  kg : JSNumber
deriving DecidableEq, Repr

structure EntryDraftJS where
  date : String
  type : MilkType
  kg : JSNumber
deriving DecidableEq, Repr

/-- `latestRate` over the `JSNumber`-valued timeline. -/
def latestRateJS (rates : List RateRecordJS) : Option RateRecordJS :=
  (sortByKey (fun r => r.effectiveFrom) rates).getLast?

def rateScanJS (dateKey : String) :
    List RateRecordJS → Option RateRecordJS → Option RateRecordJS
  | [], found => found
  | r :: rest, found =>
    if keyLe r.effectiveFrom dateKey then rateScanJS dateKey rest (some r) else found

/-- `rateForDate` over the `JSNumber`-valued timeline. -/
def rateForDateJS (rates : List RateRecordJS) (dateKey : String) : Option RateRecordJS :=
  rateScanJS dateKey (sortByKey (fun r => r.effectiveFrom) rates) none

/-- `addRate` (source lines 111–122) with JavaScript number semantics:
the validation is exactly `!clean.effectiveFrom || isNaN(clean.cow) ||
isNaN(clean.buffalo) || clean.cow <= 0 || clean.buffalo <= 0`. -/
def addRateJS (rates : List RateRecordJS) (draft : RateDraftJS) :
    List RateRecordJS × Option InsertError :=
  let clean : RateRecordJS := ⟨draft.effectiveFrom, draft.cow, draft.buffalo⟩
  if clean.effectiveFrom = "" ∨ jsIsNaN clean.cow = true ∨ jsIsNaN clean.buffalo = true ∨
      jsLeZero clean.cow = true ∨ jsLeZero clean.buffalo = true then
    (rates, some InsertError.validationError)
  else
    match latestRateJS rates with
    | some l =>
      if keyLe clean.effectiveFrom l.effectiveFrom then
        (rates, some InsertError.validationError)
      else
        (rates ++ [clean], none)
    | none => (rates ++ [clean], none)

/-- `addEntry` (source lines 102–109) with JavaScript number semantics:
the validation is exactly `!clean.date || isNaN(clean.kg) || clean.kg <= 0`. -/
def addEntryJS (entries : List EntryJS) (rates : List RateRecordJS) (draft : EntryDraftJS) :
    List EntryJS × Option InsertError :=
  let clean : EntryJS := ⟨draft.date, draft.type, draft.kg⟩
  if clean.date = "" ∨ jsIsNaN clean.kg = true ∨ jsLeZero clean.kg = true then
    (entries, some InsertError.validationError)
  else if (rateForDateJS rates clean.date).isNone then
    (entries, some InsertError.rateMissingError)
  else
    (entries ++ [clean], none)

/-! ## Persistence (source lines 54–60, 76–77)

`saveLS` serializes a collection with `JSON.stringify`; `loadLS` reads it
back with `JSON.parse`, falling back to the caller's default when the key
is absent or parsing throws.  The specification treats the store as an
opaque key-value collaborator holding serialized blobs, so we embed a
blob as the JSON *tree* the text encodes (`JSON.parse ∘ JSON.stringify`
is the identity on such trees; the concrete text syntax is out of the
specified scope).  Decoding checks the record shape the application
writes; a shape that does not match models a blob whose parse fails. -/

inductive Json where
  | str (s : String)
  | num (q : ℚ)
  | arr (items : List Json)
  | obj (fields : List (String × Json))

/-- The milk-type id string stored in an entry's `type` field. -/
def typeId : MilkType → String
  | MilkType.cow => "cow"
  | MilkType.buffalo => "buffalo"

def decodeType (s : String) : Option MilkType :=
  if s = "cow" then some MilkType.cow
  else if s = "buffalo" then some MilkType.buffalo
  else none

/-- `JSON.stringify` of one entry: field names `date`, `type`, `kg`. -/
def encodeEntry (e : Entry) : Json :=
  Json.obj [("date", Json.str e.date), ("type", Json.str (typeId e.type)),
    ("kg", Json.num e.kg)]

def decodeEntry : Json → Option Entry
  | Json.obj [("date", Json.str d), ("type", Json.str t), ("kg", Json.num k)] =>
    (decodeType t).map (fun ty => ⟨d, ty, k⟩)
  | _ => none

/-- `JSON.stringify` of one rate record: field names `effectiveFrom`,
`cow`, `buffalo`. -/
def encodeRate (r : RateRecord) : Json :=
  Json.obj [("effectiveFrom", Json.str r.effectiveFrom), ("cow", Json.num r.cow),
    ("buffalo", Json.num r.buffalo)]

def decodeRate : Json → Option RateRecord
  | Json.obj [("effectiveFrom", Json.str f), ("cow", Json.num c),
      ("buffalo", Json.num b)] => some ⟨f, c, b⟩
  | _ => none

def decodeList {α : Type} (f : Json → Option α) : List Json → Option (List α)
  | [] => some []
  | j :: js =>
    match f j, decodeList f js with
    | some a, some rest => some (a :: rest)
    | _, _ => none

def encodeEntries (es : List Entry) : Json := Json.arr (es.map encodeEntry)

def decodeEntries : Json → Option (List Entry)
  | Json.arr items => decodeList decodeEntry items
  | _ => none

def encodeRates (rs : List RateRecord) : Json := Json.arr (rs.map encodeRate)

def decodeRates : Json → Option (List RateRecord)
  | Json.arr items => decodeList decodeRate items
  | _ => none

/-- The key-value store (`localStorage`): a map from keys to blobs. -/
def Store : Type := String → Option Json

/-- `LS_KEYS = { entries: "dairy.entries.v2", rates: "dairy.rates.v2" }`. -/
def lsKeyEntries : String := "dairy.entries.v2"

def lsKeyRates : String := "dairy.rates.v2"

/-- `saveLS(key, value)` for the entry ledger:
`localStorage.setItem(key, JSON.stringify(value))`. -/
def saveEntriesLS (store : Store) (key : String) (es : List Entry) : Store :=
  fun k => if k = key then some (encodeEntries es) else store k

/-- `loadLS(key, fallback)` for the entry ledger: absent key or a failed
parse yields the fallback. -/
def loadEntriesLS (store : Store) (key : String) (fallback : List Entry) : List Entry :=
  match store key with
  | none => fallback
  | some j =>
    match decodeEntries j with
    | some es => es
    | none => fallback

/-- `saveLS(key, value)` for the rate timeline. -/
def saveRatesLS (store : Store) (key : String) (rs : List RateRecord) : Store :=
  fun k => if k = key then some (encodeRates rs) else store k

/-- `loadLS(key, fallback)` for the rate timeline. -/
def loadRatesLS (store : Store) (key : String) (fallback : List RateRecord) : List RateRecord :=
  match store key with
  | none => fallback
  | some j =>
    match decodeRates j with
    | some rs => rs
    | none => fallback

/-- The persistence effects of the two `useEffect` hooks (source lines
76–77): both collections are written under their fixed keys. -/
def saveApp (store : Store) (s : AppState) : Store :=
  saveRatesLS (saveEntriesLS store lsKeyEntries s.entries) lsKeyRates s.rates

/-- Startup deserialization (source lines 66–67): both collections are
read with an empty-list fallback. -/
def loadApp (store : Store) : AppState :=
  ⟨loadEntriesLS store lsKeyEntries [], loadRatesLS store lsKeyRates []⟩

/-! ## Calendar model (source lines 24–52)

`daysMatrix` manipulates JavaScript `Date` objects at calendar-day
precision.  We embed a `Date` as a civil (proleptic Gregorian) triple —
the calendar JavaScript's `Date` implements — together with `toOrd`, the
day ordinal used for day arithmetic and the weekday.  `mkDate y m d`
embeds `new Date(y, m, d)` including its normalization of out-of-range
month and day components (month is zero-based, day is one-based). -/

/-- Gregorian leap-year rule. -/
def isLeap (y : Int) : Bool :=
  decide (y % 4 = 0) && (!decide (y % 100 = 0) || decide (y % 400 = 0))

/-- Length of zero-based month `m` of year `y`. -/
def daysInMonth (y m : Int) : Int :=
  if m = 1 then (if isLeap y then 29 else 28)
  else if m = 3 ∨ m = 5 ∨ m = 8 ∨ m = 10 then 30
  else 31

/-- Days of year `y` that precede zero-based month `m` (for `0 ≤ m ≤ 11`). -/
def daysBefore (y m : Int) : Int :=
  (if 2 ≤ m ∧ isLeap y then 1 else 0) +
  (if m = 0 then 0 else if m = 1 then 31 else if m = 2 then 59
   else if m = 3 then 90 else if m = 4 then 120 else if m = 5 then 151
   else if m = 6 then 181 else if m = 7 then 212 else if m = 8 then 243
   else if m = 9 then 273 else if m = 10 then 304 else 334)

/-- Leap years strictly before year `y` (proleptic Gregorian). -/
def leapsBefore (y : Int) : Int :=
  (y - 1) / 4 - (y - 1) / 100 + (y - 1) / 400

/-- A JavaScript `Date` at day precision: year, zero-based month,
one-based day of month. -/
structure JSDate where
  year : Int
  month : Int
  day : Int
deriving DecidableEq, Repr

/-- The day ordinal of a date (days elapsed since the proleptic
`0001-01-01`, which has ordinal `0`). -/
def toOrd (dt : JSDate) : Int :=
  365 * (dt.year - 1) + leapsBefore dt.year + daysBefore dt.year dt.month + (dt.day - 1)

/-- `date.getDay()`: weekday, `0` = Sunday ... `6` = Saturday.  The
offset `+ 1` fixes `0001-01-01` (ordinal `0`) as a Monday, which makes
`1970-01-01` a Thursday and `2024-01-01` a Monday as required. -/
def getDay (dt : JSDate) : Int := (toOrd dt + 1) % 7

/-- Day-component normalization: while the day is outside `1 ..
daysInMonth`, move one month backward or forward.  The fuel bounds the
number of month steps; `mkDate` always supplies enough. -/
def normD : Nat → Int → Int → Int → JSDate
  | 0, y, m, d => ⟨y, m, d⟩
  | fuel + 1, y, m, d =>
    if d < 1 then
      let y2 := if m = 0 then y - 1 else y
      let m2 := if m = 0 then 11 else m - 1
      normD fuel y2 m2 (d + daysInMonth y2 m2)
    else if daysInMonth y m < d then
      let y2 := if m = 11 then y + 1 else y
      let m2 := if m = 11 then 0 else m + 1
      normD fuel y2 m2 (d - daysInMonth y m)
    else ⟨y, m, d⟩

/-- `new Date(y, m, d)`: normalize the zero-based month into the year
(floor division, as JavaScript does), then normalize the day. -/
def mkDate (y m d : Int) : JSDate :=
  normD (d.natAbs + 2) (y + m / 12) (m % 12) d

/-- `date.getDate()`: the day of the month. -/
def jsGetDate (dt : JSDate) : Int := dt.day

/-- `date.setDate(x)`: keep year and month, set the day to `x`, then
normalize. -/
def jsSetDate (dt : JSDate) (x : Int) : JSDate := mkDate dt.year dt.month x

/-- `startOfMonth` (source line 31): `new Date(y, m, 1)`. -/
def startOfMonth (dt : JSDate) : JSDate := mkDate dt.year dt.month 1

/-- `endOfMonth` (source line 32): `new Date(y, m + 1, 0)`. -/
def endOfMonth (dt : JSDate) : JSDate := mkDate dt.year (dt.month + 1) 0

/-- `cursor.setDate(cursor.getDate() + 1)` (source line 47). -/
def nextDay (dt : JSDate) : JSDate := jsSetDate dt (jsGetDate dt + 1)

/-- The inner column loop of `daysMatrix` (source lines 45–48): push a
copy of the cursor, then advance it one day; returns the row and the
advanced cursor. -/
def buildRow : Nat → JSDate → List JSDate × JSDate
  | 0, cur => ([], cur)
  | n + 1, cur =>
    let rest := buildRow n (nextDay cur)
    (cur :: rest.1, rest.2)

/-- The outer row loop of `daysMatrix` (source lines 43–50). -/
def buildRows : Nat → JSDate → List (List JSDate)
  | 0, _ => []
  | r + 1, cur =>
    let p := buildRow 7 cur
    p.1 :: buildRows r p.2

/-- `daysMatrix(activeDate)` (source lines 34–52):
`startIdx = (start.getDay() + 6) % 7` (Monday = 0),
`totalDays = startIdx + end.getDate()`,
`rows = Math.ceil(totalDays / 7)` (embedded as `(totalDays + 6) / 7`,
valid because `totalDays > 0`), the cursor starts `startIdx` days before
the first of the month, and `rows` rows of `7` cells are built. -/
def daysMatrix (activeDate : JSDate) : List (List JSDate) :=
  let start := startOfMonth activeDate
  let e := endOfMonth activeDate
  let startIdx := (getDay start + 6) % 7
  let totalDays := startIdx + jsGetDate e
  let rows := (totalDays + 6) / 7
  let first := jsSetDate start (jsGetDate start - startIdx)
  buildRows rows.toNat first

/-- A date triple is normalized: month in `0 .. 11`, day in
`1 .. daysInMonth`. -/
def Normalized (dt : JSDate) : Prop :=
  0 ≤ dt.month ∧ dt.month ≤ 11 ∧ 1 ≤ dt.day ∧ dt.day ≤ daysInMonth dt.year dt.month

/-! ## Order facts about date keys -/

theorem unitsLe_refl (a : List Nat) : unitsLe a a = true := by
  induction a with
  | nil => rfl
  | cons x xs ih => simpa [unitsLe] using ih

theorem keyLe_refl (a : String) : keyLe a a = true := unitsLe_refl _

theorem unitsLe_antisymm {a b : List Nat} (hab : unitsLe a b = true)
    (hba : unitsLe b a = true) : a = b := by
  induction a generalizing b with
  | nil =>
    cases b with
    | nil => rfl
    | cons y ys => simp [unitsLe] at hba
  | cons x xs ih =>
    cases b with
    | nil => simp [unitsLe] at hab
    | cons y ys =>
      by_cases hxy : x = y
      · subst hxy
        simp only [unitsLe, if_pos rfl] at hab hba
        rw [ih hab hba]
      · have hyx : y ≠ x := fun he => hxy he.symm
        simp only [unitsLe, if_neg hxy, decide_eq_true_eq] at hab
        simp only [unitsLe, if_neg hyx, decide_eq_true_eq] at hba
        omega

theorem keyLe_antisymm {a b : String} (hab : keyLe a b = true)
    (hba : keyLe b a = true) : a = b := by
  have hu : strUnits a = strUnits b := unitsLe_antisymm hab hba
  have hdata : a.data = b.data := by
    have hinj : Function.Injective Char.toNat := by
      intro c d h
      exact Char.ext (UInt32.ext h)
    exact List.map_injective_iff.mpr hinj hu
  exact String.ext hdata

/-! ## Characterization of `rateForDate` (claim C2 machinery) -/

theorem rateScan_some_acc (d : String) (S : List RateRecord) (a : RateRecord) :
    rateScan d S (some a) ≠ none := by
  induction S generalizing a with
  | nil => simp [rateScan]
  | cons r rest ih =>
    by_cases h : keyLe r.effectiveFrom d = true
    · simpa [rateScan, h] using ih r
    · simp [rateScan, h]

theorem rateScan_mem (d : String) (S : List RateRecord) (acc : Option RateRecord)
    (f : RateRecord) (h : rateScan d S acc = some f) : acc = some f ∨ f ∈ S := by
  induction S generalizing acc with
  | nil => left; exact h
  | cons r rest ih =>
    by_cases hr : keyLe r.effectiveFrom d = true
    · simp only [rateScan, if_pos hr] at h
      rcases ih (some r) h with h' | h'
      · right
        simp only [Option.some.injEq] at h'
        exact List.mem_cons.mpr (Or.inl h'.symm)
      · right; exact List.mem_cons.mpr (Or.inr h')
    · simp only [rateScan, if_neg hr] at h
      left; exact h

theorem rateScan_sat (d : String) (S : List RateRecord) (acc : Option RateRecord)
    (f : RateRecord)
    (hacc : ∀ a, acc = some a → keyLe a.effectiveFrom d = true)
    (h : rateScan d S acc = some f) : keyLe f.effectiveFrom d = true := by
  induction S generalizing acc with
  | nil => exact hacc f h
  | cons r rest ih =>
    by_cases hr : keyLe r.effectiveFrom d = true
    · simp only [rateScan, if_pos hr] at h
      refine ih (some r) ?_ h
      intro a ha
      simp only [Option.some.injEq] at ha
      subst ha
      exact hr
    · simp only [rateScan, if_neg hr] at h
      exact hacc f h

theorem rateScan_max (d : String) (S : List RateRecord) :
    S.Pairwise (fun a b => keyLe a.effectiveFrom b.effectiveFrom = true) →
    ∀ acc f, rateScan d S acc = some f →
      ∀ r ∈ S, keyLe r.effectiveFrom d = true →
        keyLe r.effectiveFrom f.effectiveFrom = true := by
  induction S with
  | nil => intro _ acc f _ r hr; simp at hr
  | cons x rest ih =>
    intro hS
    rcases List.pairwise_cons.mp hS with ⟨hx, hrest⟩
    intro acc f h r hr hrd
    by_cases hxd : keyLe x.effectiveFrom d = true
    · simp only [rateScan, if_pos hxd] at h
      rcases List.mem_cons.mp hr with hr | hr
      · subst hr
        rcases rateScan_mem d rest (some r) f h with h' | h'
        · simp only [Option.some.injEq] at h'
          subst h'
          exact keyLe_refl _
        · exact hx f h'
      · exact ih hrest (some x) f h r hr hrd
    · simp only [rateScan, if_neg hxd] at h
      rcases List.mem_cons.mp hr with hr | hr
      · subst hr; exact absurd hrd hxd
      · exact absurd (keyLe_trans (hx r hr) hrd) hxd

theorem rateScan_none_iff (d : String) (S : List RateRecord) :
    S.Pairwise (fun a b => keyLe a.effectiveFrom b.effectiveFrom = true) →
    (rateScan d S none = none ↔ ∀ r ∈ S, ¬ keyLe r.effectiveFrom d = true) := by
  induction S with
  | nil => intro _; simp [rateScan]
  | cons x rest ih =>
    intro hS
    rcases List.pairwise_cons.mp hS with ⟨hx, hrest⟩
    by_cases hxd : keyLe x.effectiveFrom d = true
    · simp only [rateScan, if_pos hxd]
      constructor
      · intro h
        exact absurd h (rateScan_some_acc d rest x)
      · intro h
        exact absurd hxd (h x (List.mem_cons_self _ _))
    · simp only [rateScan, if_neg hxd]
      constructor
      · intro _ r hr
        rcases List.mem_cons.mp hr with hr | hr
        · subst hr; exact hxd
        · intro hrd
          exact hxd (keyLe_trans (hx r hr) hrd)
      · intro _; trivial

/-- The sorted view of the timeline is sorted and has the same members. -/
theorem sortedRates_pairwise (rates : List RateRecord) :
    (sortedRates rates).Pairwise
      (fun a b => keyLe a.effectiveFrom b.effectiveFrom = true) :=
  pairwise_sortByKey _ rates

theorem mem_sortedRates (rates : List RateRecord) (r : RateRecord) :
    r ∈ sortedRates rates ↔ r ∈ rates :=
  mem_sortByKey _ rates r

theorem rateForDate_none_iff (rates : List RateRecord) (d : String) :
    rateForDate rates d = none ↔ ∀ r ∈ rates, ¬ keyLe r.effectiveFrom d = true := by
  rw [rateForDate, rateScan_none_iff d _ (sortedRates_pairwise rates)]
  constructor
  · intro h r hr
    exact h r ((mem_sortedRates rates r).mpr hr)
  · intro h r hr
    exact h r ((mem_sortedRates rates r).mp hr)

theorem rateForDate_some_spec (rates : List RateRecord) (d : String) (f : RateRecord)
    (hf : rateForDate rates d = some f) :
    f ∈ rates ∧ keyLe f.effectiveFrom d = true ∧
      ∀ r ∈ rates, keyLe r.effectiveFrom d = true →
        keyLe r.effectiveFrom f.effectiveFrom = true := by
  rw [rateForDate] at hf
  refine ⟨?_, ?_, ?_⟩
  · rcases rateScan_mem d _ none f hf with h | h
    · exact absurd h (by simp)
    · exact (mem_sortedRates rates f).mp h
  · exact rateScan_sat d _ none f (by simp) hf
  · intro r hr hrd
    exact rateScan_max d _ (sortedRates_pairwise rates) none f hf r
      ((mem_sortedRates rates r).mpr hr) hrd

/-- C2: `rateInEffectOn` returns the record with the greatest
`effectiveFrom ≤ D`, and `none` exactly when no record has
`effectiveFrom ≤ D` (date precedes the first recorded rate, or the
timeline is empty). -/
theorem rateForDate_correct (rates : List RateRecord) (d : String) :
    (rateForDate rates d = none ↔ ∀ r ∈ rates, ¬ keyLe r.effectiveFrom d = true) ∧
    (∀ f, rateForDate rates d = some f →
      f ∈ rates ∧ keyLe f.effectiveFrom d = true ∧
        ∀ r ∈ rates, keyLe r.effectiveFrom d = true →
          keyLe r.effectiveFrom f.effectiveFrom = true) :=
  ⟨rateForDate_none_iff rates d, fun f hf => rateForDate_some_spec rates d f hf⟩

/-- Witness for C2 on the specification's two-record scenario: the rate
in effect on `2024-01-31` is the January record, and it satisfies the
greatest-`effectiveFrom`-below bound. -/
theorem rateForDate_correct_witness :
    (⟨"2024-01-01", 50, 70⟩ : RateRecord) ∈
        [(⟨"2024-01-01", 50, 70⟩ : RateRecord), ⟨"2024-02-01", 55, 75⟩] ∧
      keyLe "2024-01-01" "2024-01-31" = true ∧
      ∀ r ∈ [(⟨"2024-01-01", 50, 70⟩ : RateRecord), ⟨"2024-02-01", 55, 75⟩],
        keyLe r.effectiveFrom "2024-01-31" = true →
          keyLe r.effectiveFrom "2024-01-01" = true :=
  (rateForDate_correct [⟨"2024-01-01", 50, 70⟩, ⟨"2024-02-01", 55, 75⟩]
    "2024-01-31").2 ⟨"2024-01-01", 50, 70⟩ rfl

/-! ## Claims C4 and C9: entry insertion and all-or-nothing errors -/

/-- C4: given otherwise-valid input, entry insertion fails with
`RateMissingError` exactly when no rate is in effect on the entry's
date; an entry dated exactly at some record's `effectiveFrom` is
accepted (the effective bound is inclusive), the resolved record's
`effectiveFrom` equals the entry's date, and when `effectiveFrom`
values are unique in the timeline the resolved record is that record. -/
theorem addEntry_rate_missing_iff (s : AppState) (draft : EntryDraft)
    (hdate : ¬ draft.date = "") (hkg : ¬ draft.kg ≤ 0) :
    ((addEntry s draft).2 = some InsertError.rateMissingError ↔
      rateForDate s.rates draft.date = none) ∧
    (∀ r ∈ s.rates, draft.date = r.effectiveFrom →
      (addEntry s draft).2 = none ∧
      (addEntry s draft).1.entries = s.entries ++ [⟨draft.date, draft.type, draft.kg⟩] ∧
      ∃ f, rateForDate s.rates draft.date = some f ∧ f.effectiveFrom = draft.date ∧
        ((∀ r' ∈ s.rates, r'.effectiveFrom = r.effectiveFrom → r' = r) → f = r)) := by
  have hval : ¬ (draft.date = "" ∨ draft.kg ≤ 0) := by tauto
  constructor
  · rcases h : rateForDate s.rates draft.date with _ | f
    · simp [addEntry, hval, h]
    · simp [addEntry, hval, h]
  · intro r hr heq
    have hrle : keyLe r.effectiveFrom draft.date = true := by
      rw [heq]; exact keyLe_refl _
    rcases h : rateForDate s.rates draft.date with _ | f
    · exact absurd hrle ((rateForDate_none_iff s.rates draft.date).mp h r hr)
    · rcases rateForDate_some_spec s.rates draft.date f h with ⟨hfmem, hfle, hfmax⟩
      have hfr : keyLe r.effectiveFrom f.effectiveFrom = true := hfmax r hr hrle
      have hrf : keyLe f.effectiveFrom r.effectiveFrom = true := by
        rw [← heq]; exact hfle
      have heff : f.effectiveFrom = r.effectiveFrom := keyLe_antisymm hrf hfr
      refine ⟨?_, ?_, f, rfl, ?_, ?_⟩
      · simp [addEntry, hval, h]
      · simp [addEntry, hval, h]
      · rw [heff, heq]
      · intro hu
        exact hu f hfmem heff

/-- Witness for C4 on the specification's boundary scenario: the entry
dated exactly at the record's `effectiveFrom` is accepted and appended. -/
theorem addEntry_rate_missing_iff_witness :
    (addEntry ⟨[], [⟨"2024-01-01", 50, 70⟩]⟩ ⟨"2024-01-01", MilkType.cow, 2⟩).2 = none ∧
    (addEntry ⟨[], [⟨"2024-01-01", 50, 70⟩]⟩ ⟨"2024-01-01", MilkType.cow, 2⟩).1.entries =
      [] ++ [⟨"2024-01-01", MilkType.cow, 2⟩] := by
  have h := (addEntry_rate_missing_iff ⟨[], [⟨"2024-01-01", 50, 70⟩]⟩
    ⟨"2024-01-01", MilkType.cow, 2⟩ (by decide) (by decide)).2
    ⟨"2024-01-01", 50, 70⟩ (by simp) rfl
  exact ⟨h.1, h.2.1⟩

/-- C9: a failing insert (entry or rate, for any reason) leaves the
application state exactly as it was. -/
theorem insert_all_or_nothing (s : AppState) (ed : EntryDraft) (rd : RateDraft) :
    ((addEntry s ed).2 ≠ none → (addEntry s ed).1 = s) ∧
    ((addRate s rd).2 ≠ none → (addRate s rd).1 = s) := by
  constructor
  · intro h
    by_cases h1 : ed.date = "" ∨ ed.kg ≤ 0
    · simp [addEntry, h1]
    · by_cases h2 : (rateForDate s.rates ed.date).isNone = true
      · simp [addEntry, h1, h2]
      · exact absurd (by simp [addEntry, h1, h2]) h
  · intro h
    by_cases h1 : rd.effectiveFrom = "" ∨ rd.cow ≤ 0 ∨ rd.buffalo ≤ 0
    · simp [addRate, h1]
    · rcases hl : latestRate s.rates with _ | l
      · exact absurd (by simp [addRate, h1, hl]) h
      · by_cases h2 : keyLe rd.effectiveFrom l.effectiveFrom = true
        · simp [addRate, h1, hl, h2]
        · exact absurd (by simp [addRate, h1, hl, h2]) h

/-- Witness for C9: a rate-missing entry insert and a zero-rate insert
both leave the empty state unchanged. -/
theorem insert_all_or_nothing_witness :
    (addEntry ⟨[], []⟩ ⟨"2024-01-05", MilkType.cow, 2⟩).1 = ⟨[], []⟩ ∧
    (addRate ⟨[], []⟩ ⟨"2024-01-01", 0, 70⟩).1 = ⟨[], []⟩ := by
  have h := insert_all_or_nothing ⟨[], []⟩ ⟨"2024-01-05", MilkType.cow, 2⟩
    ⟨"2024-01-01", 0, 70⟩
  exact ⟨h.1 (by decide), h.2 (by decide)⟩

/-! ## Claim C3: strictly increasing timeline invariant -/

theorem length_insertSorted {α : Type} (key : α → String) (r : α) (l : List α) :
    (insertSorted key r l).length = l.length + 1 := by
  induction l with
  | nil => rfl
  | cons y ys ih =>
    by_cases h : keyLe (key y) (key r) = true
    · simp [insertSorted, h, ih]
    · simp [insertSorted, h]

theorem length_sortByKey {α : Type} (key : α → String) (xs : List α) :
    (sortByKey key xs).length = xs.length := by
  suffices h : ∀ acc, (xs.foldl (fun acc r => insertSorted key r acc) acc).length =
      acc.length + xs.length by
    simpa [sortByKey] using h []
  induction xs with
  | nil => simp
  | cons y ys ih =>
    intro acc
    simp [ih, length_insertSorted]
    omega

theorem latestRate_none_iff (rates : List RateRecord) :
    latestRate rates = none ↔ rates = [] := by
  rw [latestRate, List.getLast?_eq_none_iff]
  constructor
  · intro h
    have hlen := length_sortByKey (fun r : RateRecord => r.effectiveFrom) rates
    rw [show sortByKey (fun r : RateRecord => r.effectiveFrom) rates =
      sortedRates rates from rfl, h] at hlen
    exact List.length_eq_zero.mp hlen.symm
  · intro h; subst h; rfl

theorem pairwise_getLast {α : Type} {R : α → α → Prop} (L : List α) (m : α)
    (hp : L.Pairwise R) (hm : L.getLast? = some m) :
    ∀ x ∈ L, x = m ∨ R x m := by
  induction L with
  | nil => simp at hm
  | cons a L' ih =>
    intro x hx
    cases L' with
    | nil =>
      simp only [List.getLast?_singleton, Option.some.injEq] at hm
      rcases List.mem_singleton.mp hx with h
      left; rw [h, hm]
    | cons b L'' =>
      rw [List.getLast?_cons_cons] at hm
      rcases List.pairwise_cons.mp hp with ⟨ha, hp'⟩
      rcases List.mem_cons.mp hx with hx | hx
      · subst hx
        right
        exact ha m (List.mem_of_mem_getLast? hm)
      · exact ih hp' hm x hx

/-- `latestRate` is a member of the timeline whose `effectiveFrom` is
`≥` that of every member. -/
theorem latestRate_max (rates : List RateRecord) (l : RateRecord)
    (h : latestRate rates = some l) :
    l ∈ rates ∧ ∀ r ∈ rates, keyLe r.effectiveFrom l.effectiveFrom = true := by
  constructor
  · exact (mem_sortedRates rates l).mp (List.mem_of_mem_getLast? h)
  · intro r hr
    rcases pairwise_getLast _ l (sortedRates_pairwise rates) h r
      ((mem_sortedRates rates r).mpr hr) with h' | h'
    · rw [h']; exact keyLe_refl _
    · exact h'

/-- A successful or failing `addRate` step preserves the strict chain. -/
theorem addRate_preserves_chain (s : AppState) (d : RateDraft)
    (h : List.Chain' (fun a b => keyLt a.effectiveFrom b.effectiveFrom = true) s.rates) :
    List.Chain' (fun a b => keyLt a.effectiveFrom b.effectiveFrom = true)
      ((addRate s d).1).rates := by
  by_cases h1 : d.effectiveFrom = "" ∨ d.cow ≤ 0 ∨ d.buffalo ≤ 0
  · simpa [addRate, h1] using h
  · rcases hl : latestRate s.rates with _ | l
    · have hnil : s.rates = [] := (latestRate_none_iff s.rates).mp hl
      simp only [addRate, if_neg h1, hl]
      simp [hnil]
    · by_cases h2 : keyLe d.effectiveFrom l.effectiveFrom = true
      · simpa [addRate, h1, hl, h2] using h
      · have hnew : ((addRate s d).1).rates =
            s.rates ++ [⟨d.effectiveFrom, d.cow, d.buffalo⟩] := by
          simp [addRate, h1, hl, h2]
        rw [hnew, List.chain'_append]
        refine ⟨h, List.chain'_singleton _, ?_⟩
        intro x hx y hy
        simp only [List.head?_cons, Option.mem_def, Option.some.injEq] at hy
        subst hy
        have hxmem : x ∈ s.rates := List.mem_of_mem_getLast? hx
        have hxle : keyLe x.effectiveFrom l.effectiveFrom = true :=
          (latestRate_max s.rates l hl).2 x hxmem
        have hdx : keyLe d.effectiveFrom x.effectiveFrom = false := by
          rcases Bool.eq_false_or_eq_true (keyLe d.effectiveFrom x.effectiveFrom) with hc | hc
          · exact absurd (keyLe_trans hc hxle) h2
          · exact hc
        simp [keyLt, hdx]

/-- C3: starting from the empty state, any sequence of `addRate` calls
leaves the stored `effectiveFrom` values strictly increasing in
insertion order; `latestRate` is a member whose `effectiveFrom` is the
maximum of all stored (ever-accepted) records; and an insert whose
`effectiveFrom` is `≤` the latest record's is rejected with the state
unchanged (the check is skipped only when the timeline is empty). -/
theorem addRate_timeline_invariant (drafts : List RateDraft) :
    List.Chain' (fun a b => keyLt a.effectiveFrom b.effectiveFrom = true)
      ((drafts.foldl (fun s d => (addRate s d).1) ⟨[], []⟩).rates) ∧
    (∀ rates : List RateRecord, ∀ l, latestRate rates = some l →
      l ∈ rates ∧ ∀ r ∈ rates, keyLe r.effectiveFrom l.effectiveFrom = true) ∧
    (∀ s : AppState, ∀ l, latestRate s.rates = some l → ∀ d : RateDraft,
      keyLe d.effectiveFrom l.effectiveFrom = true →
      (addRate s d).1 = s ∧ (addRate s d).2 ≠ none) := by
  refine ⟨?_, ?_, ?_⟩
  · have hfold : ∀ (ds : List RateDraft) (s : AppState),
        List.Chain' (fun a b => keyLt a.effectiveFrom b.effectiveFrom = true) s.rates →
        List.Chain' (fun a b => keyLt a.effectiveFrom b.effectiveFrom = true)
          ((ds.foldl (fun s d => (addRate s d).1) s).rates) := by
      intro ds
      induction ds with
      | nil => intro s hs; simpa using hs
      | cons d ds ih =>
        intro s hs
        exact ih _ (addRate_preserves_chain s d hs)
    exact hfold drafts ⟨[], []⟩ (by simp)
  · intro rates l hl
    exact latestRate_max rates l hl
  · intro s l hl d hle
    by_cases h1 : d.effectiveFrom = "" ∨ d.cow ≤ 0 ∨ d.buffalo ≤ 0
    · constructor
      · simp [addRate, h1]
      · simp [addRate, h1]
    · constructor
      · simp [addRate, h1, hl, hle]
      · simp [addRate, h1, hl, hle]

/-- Witness for C3 on the specification's scenario: re-inserting a rate
dated exactly at the current latest record's `effectiveFrom` is
rejected and changes nothing. -/
theorem addRate_timeline_invariant_witness :
    (addRate ⟨[], [⟨"2024-01-01", 50, 70⟩]⟩ ⟨"2024-01-01", 55, 75⟩).1 =
      ⟨[], [⟨"2024-01-01", 50, 70⟩]⟩ ∧
    (addRate ⟨[], [⟨"2024-01-01", 50, 70⟩]⟩ ⟨"2024-01-01", 55, 75⟩).2 ≠ none :=
  (addRate_timeline_invariant []).2.2 ⟨[], [⟨"2024-01-01", 50, 70⟩]⟩
    ⟨"2024-01-01", 50, 70⟩ (by decide) ⟨"2024-01-01", 55, 75⟩ (by decide)

/-! ## Claim C1: `totals` and entries without rate coverage -/

/-- Counterexample to C1 as stated: for a cow entry of 2 kg on a date
with no rate coverage, `totals` leaves the cow kg tally at `0` — the
entry's weight is *not* added to the kg tally. -/
theorem totals_unrated_weight_cex :
    (totals [⟨"2024-01-05", MilkType.cow, 2⟩] []).cowKg = 0 ∧
    ¬ (totals [⟨"2024-01-05", MilkType.cow, 2⟩] []).cowKg = 2 :=
  ⟨rfl, by decide⟩

/-- C1 (amended): `totals` skips an entry whose date has no resolvable
rate *entirely* — from the cost and from the kg tallies alike — so the
aggregate equals the aggregate of the sub-ledger of rate-covered
entries (`if (!r) continue;`, source line 128). -/
theorem totals_skips_unrated (entries : List Entry) (rates : List RateRecord) :
    totals entries rates =
      totals (entries.filter (fun e => (rateForDate rates e.date).isSome)) rates := by
  have h : ∀ (es : List Entry) (acc : ℚ × ℚ × ℚ),
      es.foldl (totalsStep rates) acc =
        (es.filter (fun e => (rateForDate rates e.date).isSome)).foldl
          (totalsStep rates) acc := by
    intro es
    induction es with
    | nil => intro acc; rfl
    | cons e es ih =>
      intro acc
      rcases hr : rateForDate rates e.date with _ | r
      · have hstep : totalsStep rates acc e = acc := by
          simp [totalsStep, hr]
        simp [List.filter_cons, hr, hstep, ih]
      · simp [List.filter_cons, hr, ih]
  simp only [totals]
  rw [h]

/-! ## Per-day summary machinery (claims C5 and C10) -/

/-- The per-entry unit price of source line 141:
`e.type === "cow" ? r?.cow ?? 0 : r?.buffalo ?? 0` — `0` when the
entry's date has no resolvable rate. -/
def perKgOf (rates : List RateRecord) (e : Entry) : ℚ :=
  match e.type with
  | MilkType.cow => ((rateForDate rates e.date).map (fun r => r.cow)).getD 0
  | MilkType.buffalo => ((rateForDate rates e.date).map (fun r => r.buffalo)).getD 0

/-- The cow-kg contribution of an entry (its weight if it is a cow
entry, `0` otherwise). -/
def cowWeight (e : Entry) : ℚ :=
  match e.type with
  | MilkType.cow => e.kg
  | MilkType.buffalo => 0

/-- The buffalo-kg contribution of an entry. -/
def bufWeight (e : Entry) : ℚ :=
  match e.type with
  | MilkType.cow => 0
  | MilkType.buffalo => e.kg

def sumCowKg (m : List (String × DaySum)) : ℚ := (m.map (fun p => p.2.cowKg)).sum

def sumBufKg (m : List (String × DaySum)) : ℚ := (m.map (fun p => p.2.bufKg)).sum

def sumCost (m : List (String × DaySum)) : ℚ := (m.map (fun p => p.2.cost)).sum

theorem sum_map_mapSet (g : DaySum → ℚ) (hg : g ⟨0, 0, 0⟩ = 0)
    (m : List (String × DaySum)) (k : String) (v : DaySum) :
    ((mapSet m k v).map (fun p => g p.2)).sum =
      (m.map (fun p => g p.2)).sum + g v - g ((mapGet m k).getD ⟨0, 0, 0⟩) := by
  induction m with
  | nil =>
    simp [mapSet, mapGet, hg]
  | cons p rest ih =>
    by_cases h : p.1 = k
    · simp only [mapSet, mapGet, if_pos h, List.map_cons, List.sum_cons,
        Option.getD_some]
      ring
    · simp only [mapSet, mapGet, if_neg h, List.map_cons, List.sum_cons, ih]
      ring

theorem dayStep_eq (rates : List RateRecord) (m : List (String × DaySum)) (e : Entry) :
    dayStep rates m e =
      mapSet m e.date
        ⟨((mapGet m e.date).getD ⟨0, 0, 0⟩).cowKg + cowWeight e,
         ((mapGet m e.date).getD ⟨0, 0, 0⟩).bufKg + bufWeight e,
         ((mapGet m e.date).getD ⟨0, 0, 0⟩).cost + perKgOf rates e * e.kg⟩ := by
  rcases e with ⟨d, ty, kg⟩
  cases ty
  · simp [dayStep, perKgOf, cowWeight, bufWeight]
  · simp [dayStep, perKgOf, cowWeight, bufWeight]

theorem sumCowKg_dayStep (rates : List RateRecord) (m : List (String × DaySum))
    (e : Entry) : sumCowKg (dayStep rates m e) = sumCowKg m + cowWeight e := by
  rw [sumCowKg, dayStep_eq, sum_map_mapSet (fun s => s.cowKg) rfl]
  simp [sumCowKg]
  ring

theorem sumBufKg_dayStep (rates : List RateRecord) (m : List (String × DaySum))
    (e : Entry) : sumBufKg (dayStep rates m e) = sumBufKg m + bufWeight e := by
  rw [sumBufKg, dayStep_eq, sum_map_mapSet (fun s => s.bufKg) rfl]
  simp [sumBufKg]
  ring

theorem sumCost_dayStep (rates : List RateRecord) (m : List (String × DaySum))
    (e : Entry) : sumCost (dayStep rates m e) = sumCost m + perKgOf rates e * e.kg := by
  rw [sumCost, dayStep_eq, sum_map_mapSet (fun s => s.cost) rfl]
  simp [sumCost]
  ring

theorem sumCowKg_dayMap (entries : List Entry) (rates : List RateRecord) :
    sumCowKg (dayMap entries rates) = (entries.map cowWeight).sum := by
  have h : ∀ (es : List Entry) (m : List (String × DaySum)),
      sumCowKg (es.foldl (dayStep rates) m) = sumCowKg m + (es.map cowWeight).sum := by
    intro es
    induction es with
    | nil => intro m; simp
    | cons e es ih =>
      intro m
      simp only [List.foldl_cons, List.map_cons, List.sum_cons, ih,
        sumCowKg_dayStep]
      ring
  simpa [sumCowKg] using h entries []

theorem sumBufKg_dayMap (entries : List Entry) (rates : List RateRecord) :
    sumBufKg (dayMap entries rates) = (entries.map bufWeight).sum := by
  have h : ∀ (es : List Entry) (m : List (String × DaySum)),
      sumBufKg (es.foldl (dayStep rates) m) = sumBufKg m + (es.map bufWeight).sum := by
    intro es
    induction es with
    | nil => intro m; simp
    | cons e es ih =>
      intro m
      simp only [List.foldl_cons, List.map_cons, List.sum_cons, ih,
        sumBufKg_dayStep]
      ring
  simpa [sumBufKg] using h entries []

theorem sumCost_dayMap (entries : List Entry) (rates : List RateRecord) :
    sumCost (dayMap entries rates) =
      (entries.map (fun e => perKgOf rates e * e.kg)).sum := by
  have h : ∀ (es : List Entry) (m : List (String × DaySum)),
      sumCost (es.foldl (dayStep rates) m) =
        sumCost m + (es.map (fun e => perKgOf rates e * e.kg)).sum := by
    intro es
    induction es with
    | nil => intro m; simp
    | cons e es ih =>
      intro m
      simp only [List.foldl_cons, List.map_cons, List.sum_cons, ih,
        sumCost_dayStep]
      ring
  simpa [sumCost] using h entries []

theorem totals_cowKg_eq (entries : List Entry) (rates : List RateRecord) :
    (totals entries rates).cowKg =
      (entries.map (fun e =>
        if (rateForDate rates e.date).isSome then cowWeight e else 0)).sum := by
  have h : ∀ (es : List Entry) (acc : ℚ × ℚ × ℚ),
      (es.foldl (totalsStep rates) acc).1 =
        acc.1 + (es.map (fun e =>
          if (rateForDate rates e.date).isSome then cowWeight e else 0)).sum := by
    intro es
    induction es with
    | nil => intro acc; simp
    | cons e es ih =>
      intro acc
      rcases hr : rateForDate rates e.date with _ | r
      · simp only [List.foldl_cons, List.map_cons, List.sum_cons, ih]
        have hstep : totalsStep rates acc e = acc := by simp [totalsStep, hr]
        simp [hstep, hr]
      · rcases e with ⟨d, ty, kg⟩
        cases ty
        · simp only [List.foldl_cons, List.map_cons, List.sum_cons, ih]
          simp [totalsStep, hr, cowWeight]
          ring
        · simp only [List.foldl_cons, List.map_cons, List.sum_cons, ih]
          simp [totalsStep, hr, cowWeight]
  simp only [totals]
  rw [h]
  simp

theorem totals_bufKg_eq (entries : List Entry) (rates : List RateRecord) :
    (totals entries rates).bufKg =
      (entries.map (fun e =>
        if (rateForDate rates e.date).isSome then bufWeight e else 0)).sum := by
  have h : ∀ (es : List Entry) (acc : ℚ × ℚ × ℚ),
      (es.foldl (totalsStep rates) acc).2.1 =
        acc.2.1 + (es.map (fun e =>
          if (rateForDate rates e.date).isSome then bufWeight e else 0)).sum := by
    intro es
    induction es with
    | nil => intro acc; simp
    | cons e es ih =>
      intro acc
      rcases hr : rateForDate rates e.date with _ | r
      · simp only [List.foldl_cons, List.map_cons, List.sum_cons, ih]
        have hstep : totalsStep rates acc e = acc := by simp [totalsStep, hr]
        simp [hstep, hr]
      · rcases e with ⟨d, ty, kg⟩
        cases ty
        · simp only [List.foldl_cons, List.map_cons, List.sum_cons, ih]
          simp [totalsStep, hr, bufWeight]
        · simp only [List.foldl_cons, List.map_cons, List.sum_cons, ih]
          simp [totalsStep, hr, bufWeight]
          ring
  simp only [totals]
  rw [h]
  simp

theorem totals_cost_eq (entries : List Entry) (rates : List RateRecord) :
    (totals entries rates).cost =
      (entries.map (fun e => perKgOf rates e * e.kg)).sum := by
  have h : ∀ (es : List Entry) (acc : ℚ × ℚ × ℚ),
      (es.foldl (totalsStep rates) acc).2.2 =
        acc.2.2 + (es.map (fun e => perKgOf rates e * e.kg)).sum := by
    intro es
    induction es with
    | nil => intro acc; simp
    | cons e es ih =>
      intro acc
      rcases hr : rateForDate rates e.date with _ | r
      · simp only [List.foldl_cons, List.map_cons, List.sum_cons, ih]
        have hstep : totalsStep rates acc e = acc := by simp [totalsStep, hr]
        have hper : perKgOf rates e = 0 := by
          rcases e with ⟨d, ty, kg⟩
          cases ty <;> simp [perKgOf, hr]
        simp [hstep, hper]
      · rcases e with ⟨d, ty, kg⟩
        cases ty
        · simp only [List.foldl_cons, List.map_cons, List.sum_cons, ih]
          simp [totalsStep, hr, perKgOf]
          ring
        · simp only [List.foldl_cons, List.map_cons, List.sum_cons, ih]
          simp [totalsStep, hr, perKgOf]
          ring
  simp only [totals]
  rw [h]
  simp

/-! ## Keys of the per-day map -/

theorem mapGet_eq_none_iff (m : List (String × DaySum)) (k : String) :
    mapGet m k = none ↔ k ∉ m.map Prod.fst := by
  induction m with
  | nil => simp [mapGet]
  | cons p rest ih =>
    by_cases h : p.1 = k
    · simp only [mapGet, if_pos h, List.map_cons]
      constructor
      · intro hc; exact Option.noConfusion hc
      · intro hc
        exact absurd (List.mem_cons.mpr (Or.inl h.symm)) hc
    · simp only [mapGet, if_neg h, List.map_cons, ih]
      constructor
      · intro hc hmem
        rcases List.mem_cons.mp hmem with h' | h'
        · exact h h'.symm
        · exact hc h'
      · intro hc hmem
        exact hc (List.mem_cons_of_mem _ hmem)

theorem keys_mapSet_present (m : List (String × DaySum)) (k : String) (v : DaySum)
    (h : k ∈ m.map Prod.fst) :
    (mapSet m k v).map Prod.fst = m.map Prod.fst := by
  induction m with
  | nil => simp at h
  | cons p rest ih =>
    by_cases hp : p.1 = k
    · simp [mapSet, hp]
    · rw [List.map_cons] at h
      rcases List.mem_cons.mp h with h' | h'
      · exact absurd h'.symm hp
      · simp [mapSet, hp, ih h']

theorem keys_mapSet_absent (m : List (String × DaySum)) (k : String) (v : DaySum)
    (h : k ∉ m.map Prod.fst) :
    (mapSet m k v).map Prod.fst = m.map Prod.fst ++ [k] := by
  induction m with
  | nil => simp [mapSet]
  | cons p rest ih =>
    have hp : p.1 ≠ k := by
      intro he; exact h (by simp [he])
    have hrest : k ∉ rest.map Prod.fst := by
      intro he; exact h (by simp [he])
    simp [mapSet, hp, ih hrest]

theorem dayMap_keys (rates : List RateRecord) (es : List Entry) :
    ∀ (m : List (String × DaySum)), (m.map Prod.fst).Nodup →
      ((es.foldl (dayStep rates) m).map Prod.fst).Nodup ∧
      (∀ d, d ∈ (es.foldl (dayStep rates) m).map Prod.fst ↔
        d ∈ m.map Prod.fst ∨ d ∈ es.map Entry.date) := by
  induction es with
  | nil =>
    intro m hm
    exact ⟨hm, by simp⟩
  | cons e es ih =>
    intro m hm
    by_cases hk : e.date ∈ m.map Prod.fst
    · have hkeys : (dayStep rates m e).map Prod.fst = m.map Prod.fst := by
        rw [dayStep_eq]
        exact keys_mapSet_present m e.date _ hk
      rcases ih (dayStep rates m e) (by rw [hkeys]; exact hm) with ⟨hnd, hmem⟩
      refine ⟨hnd, ?_⟩
      intro d
      simp only [List.foldl_cons]
      rw [hmem d, hkeys]
      simp only [List.map_cons, List.mem_cons]
      constructor
      · tauto
      · rintro (h | h | h)
        · tauto
        · subst h; tauto
        · tauto
    · have hkeys : (dayStep rates m e).map Prod.fst = m.map Prod.fst ++ [e.date] := by
        rw [dayStep_eq]
        exact keys_mapSet_absent m e.date _ hk
      have hnd' : ((dayStep rates m e).map Prod.fst).Nodup := by
        rw [hkeys]
        simp [List.nodup_append, hm, hk]
      rcases ih (dayStep rates m e) hnd' with ⟨hnd, hmem⟩
      refine ⟨hnd, ?_⟩
      intro d
      simp only [List.foldl_cons]
      rw [hmem d, hkeys]
      simp only [List.mem_append, List.mem_singleton, List.map_cons, List.mem_cons]
      tauto

/-! ## Claim C5: totals cost versus per-day cost sum -/

/-- C5: the total cost equals the sum, over the per-day summaries built
from the same entry list, of the per-day costs; the per-day map has one
bucket per distinct date of the ledger. -/
theorem totals_cost_eq_dayMap_sum (entries : List Entry) (rates : List RateRecord) :
    (totals entries rates).cost =
      ((dayMap entries rates).map (fun p => p.2.cost)).sum ∧
    ((dayMap entries rates).map Prod.fst).Nodup ∧
    (∀ d, d ∈ (dayMap entries rates).map Prod.fst ↔ d ∈ entries.map Entry.date) := by
  refine ⟨?_, ?_, ?_⟩
  · rw [totals_cost_eq]
    have h := sumCost_dayMap entries rates
    rw [sumCost] at h
    rw [h]
  · exact (dayMap_keys rates entries [] (by simp)).1
  · intro d
    have h := (dayMap_keys rates entries [] (by simp)).2 d
    simp only [dayMap]
    rw [h]
    simp

/-! ## Claim C10: per-day summaries keep unrated weight at zero cost -/

/-- C10: folding an entry whose date has no rate in effect into the
per-day map adds its weight to the matching kg bucket but adds exactly
`0` to the cost (the unresolved unit price defaults to `0`); hence on a
positive-weight ledger containing such an entry, the per-day summaries
and `totals` disagree on the kg tallies. -/
theorem dayMap_unrated_entry (rates : List RateRecord) :
    (∀ (m : List (String × DaySum)) (e : Entry), rateForDate rates e.date = none →
      sumCowKg (dayStep rates m e) = sumCowKg m + cowWeight e ∧
      sumBufKg (dayStep rates m e) = sumBufKg m + bufWeight e ∧
      sumCost (dayStep rates m e) = sumCost m) ∧
    (∀ entries : List Entry, (∀ e ∈ entries, 0 < e.kg) →
      ∀ e ∈ entries, rateForDate rates e.date = none →
      ¬ (sumCowKg (dayMap entries rates) + sumBufKg (dayMap entries rates) =
        (totals entries rates).cowKg + (totals entries rates).bufKg)) := by
  constructor
  · intro m e hnone
    have hper : perKgOf rates e = 0 := by
      rcases e with ⟨d, ty, kg⟩
      cases ty <;> simp [perKgOf, hnone]
    refine ⟨sumCowKg_dayStep rates m e, sumBufKg_dayStep rates m e, ?_⟩
    rw [sumCost_dayStep, hper]
    ring
  · intro es hpos e he hnone heq
    have h1 : sumCowKg (dayMap es rates) + sumBufKg (dayMap es rates) =
        (es.map (fun x => cowWeight x + bufWeight x)).sum := by
      rw [sumCowKg_dayMap, sumBufKg_dayMap, List.sum_map_add]
    have h2 : (totals es rates).cowKg + (totals es rates).bufKg =
        (es.map (fun x =>
          (if (rateForDate rates x.date).isSome then cowWeight x else 0) +
          (if (rateForDate rates x.date).isSome then bufWeight x else 0))).sum := by
      rw [totals_cowKg_eq, totals_bufKg_eq, List.sum_map_add]
    have hpt : ∀ x : Entry,
        cowWeight x + bufWeight x =
          ((if (rateForDate rates x.date).isSome then cowWeight x else 0) +
           (if (rateForDate rates x.date).isSome then bufWeight x else 0)) +
          (if (rateForDate rates x.date).isSome then 0 else x.kg) := by
      intro x
      rcases x with ⟨d, ty, kg⟩
      by_cases hx : (rateForDate rates d).isSome
      · cases ty <;> simp [cowWeight, bufWeight, hx]
      · cases ty <;> simp [cowWeight, bufWeight, hx]
    have hsplit : (es.map (fun x => cowWeight x + bufWeight x)).sum =
        (es.map (fun x =>
          (if (rateForDate rates x.date).isSome then cowWeight x else 0) +
          (if (rateForDate rates x.date).isSome then bufWeight x else 0))).sum +
        (es.map (fun x =>
          if (rateForDate rates x.date).isSome then 0 else x.kg)).sum := by
      rw [← List.sum_map_add]
      congr 1
      exact List.map_congr_left (fun x _ => hpt x)
    have hD : (es.map (fun x =>
        if (rateForDate rates x.date).isSome then 0 else x.kg)).sum = 0 := by
      have := heq
      rw [h1, h2] at this
      rw [hsplit] at this
      linarith
    have hterm : (fun x : Entry =>
        if (rateForDate rates x.date).isSome then 0 else x.kg) e = e.kg := by
      simp [hnone]
    have hnn : ∀ q ∈ es.map (fun x =>
        if (rateForDate rates x.date).isSome then 0 else x.kg), 0 ≤ q := by
      intro q hq
      rcases List.mem_map.mp hq with ⟨x, hx, hq'⟩
      subst hq'
      by_cases hx' : (rateForDate rates x.date).isSome
      · simp [hx']
      · simp only [hx', if_false]
        exact le_of_lt (hpos x hx)
    have hle : e.kg ≤ (es.map (fun x =>
        if (rateForDate rates x.date).isSome then 0 else x.kg)).sum := by
      refine List.single_le_sum hnn _ ?_
      rw [← hterm]
      exact List.mem_map.mpr ⟨e, he, rfl⟩
    have : (0 : ℚ) < e.kg := hpos e he
    rw [hD] at hle
    linarith

/-- Witness for C10: a single unrated 2 kg cow entry makes the two
aggregations disagree on the kg tallies. -/
theorem dayMap_unrated_entry_witness :
    ¬ (sumCowKg (dayMap [⟨"2024-01-05", MilkType.cow, 2⟩] []) +
        sumBufKg (dayMap [⟨"2024-01-05", MilkType.cow, 2⟩] []) =
      (totals [⟨"2024-01-05", MilkType.cow, 2⟩] []).cowKg +
        (totals [⟨"2024-01-05", MilkType.cow, 2⟩] []).bufKg) :=
  (dayMap_unrated_entry []).2 [⟨"2024-01-05", MilkType.cow, 2⟩] (by decide)
    ⟨"2024-01-05", MilkType.cow, 2⟩ (by simp) rfl

/-! ## Claim C6: validation under JavaScript number semantics -/

/-- Counterexample to C6 as stated: a rate draft with `cow = Infinity`
passes validation (`isNaN(Infinity)` and `Infinity <= 0` are both
false) and is inserted, instead of failing with `ValidationError`. -/
theorem addRateJS_accepts_infinity_cex :
    addRateJS [] ⟨"2024-01-01", JSNumber.posInf, JSNumber.num 5⟩ =
      ([⟨"2024-01-01", JSNumber.posInf, JSNumber.num 5⟩], none) := by decide

/-- C6 (amended): rate insertion fails with `ValidationError` whenever
`effectiveFrom` is absent or either rate is NaN or `≤ 0`, and entry
insertion fails with `ValidationError` whenever the date is absent or
the normalized weight is NaN or `≤ 0`; but the checks do not reject the
infinities — a draft whose numbers are merely non-NaN and not `≤ 0`
(so possibly `Infinity`) is accepted on an empty timeline. -/
theorem validation_nan_nonpositive :
    (∀ (rates : List RateRecordJS) (d : RateDraftJS),
      (d.effectiveFrom = "" ∨ jsIsNaN d.cow = true ∨ jsIsNaN d.buffalo = true ∨
        jsLeZero d.cow = true ∨ jsLeZero d.buffalo = true) →
      addRateJS rates d = (rates, some InsertError.validationError)) ∧
    (∀ (entries : List EntryJS) (rates : List RateRecordJS) (d : EntryDraftJS),
      (d.date = "" ∨ jsIsNaN d.kg = true ∨ jsLeZero d.kg = true) →
      addEntryJS entries rates d = (entries, some InsertError.validationError)) ∧
    (∀ d : RateDraftJS, ¬ d.effectiveFrom = "" → jsIsNaN d.cow = false →
      jsIsNaN d.buffalo = false → jsLeZero d.cow = false → jsLeZero d.buffalo = false →
      addRateJS [] d = ([⟨d.effectiveFrom, d.cow, d.buffalo⟩], none)) := by
  refine ⟨?_, ?_, ?_⟩
  · intro rates d h
    simp only [addRateJS]
    rw [if_pos h]
  · intro entries rates d h
    simp only [addEntryJS]
    rw [if_pos h]
  · intro d h1 h2 h3 h4 h5
    have hcond : ¬ (d.effectiveFrom = "" ∨ jsIsNaN d.cow = true ∨
        jsIsNaN d.buffalo = true ∨ jsLeZero d.cow = true ∨
        jsLeZero d.buffalo = true) := by
      simp [h1, h2, h3, h4, h5]
    simp [addRateJS, hcond, latestRateJS, sortByKey]

/-- Witness for C6 (amended): a NaN cow rate is rejected with
`ValidationError` and the timeline is unchanged. -/
theorem validation_nan_nonpositive_witness :
    addRateJS [] ⟨"2024-01-01", JSNumber.nan, JSNumber.num 5⟩ =
      ([], some InsertError.validationError) :=
  validation_nan_nonpositive.1 [] ⟨"2024-01-01", JSNumber.nan, JSNumber.num 5⟩
    (Or.inr (Or.inl rfl))

/-! ## Claim C8: persistence round-trip -/

theorem decodeEntry_encodeEntry (e : Entry) : decodeEntry (encodeEntry e) = some e := by
  rcases e with ⟨d, ty, kg⟩
  cases ty <;> rfl

theorem decodeRate_encodeRate (r : RateRecord) : decodeRate (encodeRate r) = some r := by
  rcases r with ⟨f, c, b⟩
  rfl

theorem decodeList_encodeEntries (es : List Entry) :
    decodeList decodeEntry (es.map encodeEntry) = some es := by
  induction es with
  | nil => rfl
  | cons e es ih =>
    simp [decodeList, decodeEntry_encodeEntry, ih]

theorem decodeList_encodeRates (rs : List RateRecord) :
    decodeList decodeRate (rs.map encodeRate) = some rs := by
  induction rs with
  | nil => rfl
  | cons r rs ih =>
    simp [decodeList, decodeRate_encodeRate, ih]

/-- C8: saving both collections to the key-value store and loading them
back yields an equal ledger and timeline (field names preserved by the
encoders). -/
theorem persistence_roundtrip (store : Store) (s : AppState) :
    loadApp (saveApp store s) = s := by
  rcases s with ⟨es, rs⟩
  have hk : ¬ (lsKeyEntries = lsKeyRates) := by decide
  simp [loadApp, saveApp, loadEntriesLS, loadRatesLS, saveEntriesLS, saveRatesLS,
    hk, decodeEntries, encodeEntries, decodeRates, encodeRates,
    decodeList_encodeEntries, decodeList_encodeRates]

/-! ## Calendar arithmetic (claim C7 machinery) -/

theorem daysInMonth_bounds (y m : Int) (_h0 : 0 ≤ m) (_h1 : m ≤ 11) :
    28 ≤ daysInMonth y m ∧ daysInMonth y m ≤ 31 := by
  rw [daysInMonth]
  split_ifs <;> omega

theorem isLeap_iff (y : Int) :
    isLeap y = true ↔ (y % 4 = 0 ∧ (¬ y % 100 = 0 ∨ y % 400 = 0)) := by
  simp [isLeap, Bool.and_eq_true, Bool.or_eq_true, decide_eq_true_eq]

theorem leapsBefore_succ (y : Int) :
    leapsBefore (y + 1) = leapsBefore y + (if isLeap y then 1 else 0) := by
  rw [leapsBefore, leapsBefore]
  split_ifs with h
  · rw [isLeap_iff] at h
    omega
  · rw [isLeap_iff] at h
    push_neg at h
    omega

theorem daysBefore_succ (y m : Int) (h0 : 0 ≤ m) (h1 : m ≤ 10) :
    daysBefore y (m + 1) = daysBefore y m + daysInMonth y m := by
  interval_cases m <;> simp [daysBefore, daysInMonth] <;> split_ifs <;> omega

/-- The first day of the following month is one past the last day of
month `m` (for `0 ≤ m ≤ 11`); the successor month wraps at December. -/
theorem toOrd_next_month_first (y m : Int) (h0 : 0 ≤ m) (h1 : m ≤ 11) :
    toOrd ⟨if m = 11 then y + 1 else y, if m = 11 then 0 else m + 1, 1⟩ =
      toOrd ⟨y, m, 1⟩ + daysInMonth y m := by
  by_cases hm : m = 11
  · subst hm
    simp only [reduceIte, toOrd]
    rw [leapsBefore_succ]
    have hd0 : daysBefore (y + 1) 0 = 0 := by norm_num [daysBefore]
    have hd11 : daysBefore y 11 = 334 + (if isLeap y then 1 else 0) := by
      rw [daysBefore]
      norm_num
      exact add_comm _ _
    have hlen : daysInMonth y 11 = 31 := by norm_num [daysInMonth]
    rw [hd0, hd11, hlen]
    split_ifs <;> ring
  · simp only [if_neg hm]
    simp only [toOrd]
    rw [daysBefore_succ y m h0 (by omega)]
    ring

/-- The first day of month `m` is one past the last day of the
preceding month (for `0 ≤ m ≤ 11`); the predecessor wraps at January. -/
theorem toOrd_prev_month (y m : Int) (h0 : 0 ≤ m) (h1 : m ≤ 11) :
    toOrd ⟨y, m, 1⟩ =
      toOrd ⟨if m = 0 then y - 1 else y, if m = 0 then 11 else m - 1, 1⟩ +
        daysInMonth (if m = 0 then y - 1 else y) (if m = 0 then 11 else m - 1) := by
  by_cases hm : m = 0
  · subst hm
    simp only [reduceIte]
    have h := toOrd_next_month_first (y - 1) 11 (by omega) (by omega)
    simp only [reduceIte] at h
    have hy : y - 1 + 1 = y := by ring
    rw [hy] at h
    exact h
  · simp only [if_neg hm]
    have h := toOrd_next_month_first y (m - 1) (by omega) (by omega)
    have hne : ¬ (m - 1 = 11) := by omega
    simp only [if_neg hne] at h
    have hmm : m - 1 + 1 = m := by ring
    rw [hmm] at h
    exact h

/-- A date whose day is in range needs no normalization. -/
theorem normD_inRange (f : Nat) (y m d : Int) (h1 : 1 ≤ d)
    (h2 : d ≤ daysInMonth y m) : normD f y m d = ⟨y, m, d⟩ := by
  cases f with
  | zero => rfl
  | succ f =>
    rw [normD, if_neg (by omega), if_neg (by omega)]

/-- Only the day of a date changes its ordinal within a month. -/
theorem toOrd_day (y m d : Int) : toOrd ⟨y, m, d⟩ = toOrd ⟨y, m, 1⟩ + (d - 1) := by
  simp only [toOrd]
  ring

/-- Correctness of `new Date(y, m, d)` over the day range `daysMatrix`
exercises: for a zero-based month already in `0 .. 11` and a day
argument within one month of range, the constructed date is normalized
and its ordinal is the month's first-day ordinal plus `d - 1`. -/
theorem mkDate_spec (y m x : Int) (hm0 : 0 ≤ m) (hm1 : m ≤ 11) (hx0 : -26 ≤ x)
    (hx1 : x ≤ daysInMonth y m + 28) :
    Normalized (mkDate y m x) ∧ toOrd (mkDate y m x) = toOrd ⟨y, m, 1⟩ + (x - 1) := by
  have h1 : y + m / 12 = y := by omega
  have h2 : m % 12 = m := by omega
  rw [mkDate, h1, h2]
  rcases daysInMonth_bounds y m hm0 hm1 with ⟨hlo, hhi⟩
  by_cases ha : 1 ≤ x ∧ x ≤ daysInMonth y m
  · rw [normD_inRange _ y m x ha.1 ha.2]
    exact ⟨⟨hm0, hm1, ha.1, ha.2⟩, toOrd_day y m x⟩
  · have hfuel : x.natAbs + 2 = (x.natAbs + 1) + 1 := rfl
    by_cases hb : x < 1
    · rw [hfuel]
      simp only [normD, if_pos hb]
      have hm2b : (0 ≤ (if m = 0 then 11 else m - 1)) ∧ (if m = 0 then 11 else m - 1) ≤ 11 := by
        split_ifs <;> omega
      rcases daysInMonth_bounds (if m = 0 then y - 1 else y) (if m = 0 then 11 else m - 1)
        hm2b.1 hm2b.2 with ⟨hlo2, hhi2⟩
      have hx2a : 1 ≤ x + daysInMonth (if m = 0 then y - 1 else y)
          (if m = 0 then 11 else m - 1) := by omega
      have hx2b : x + daysInMonth (if m = 0 then y - 1 else y)
          (if m = 0 then 11 else m - 1) ≤
          daysInMonth (if m = 0 then y - 1 else y) (if m = 0 then 11 else m - 1) := by
        omega
      rw [if_neg (by omega), if_neg (by omega)]
      refine ⟨⟨hm2b.1, hm2b.2, hx2a, hx2b⟩, ?_⟩
      rw [toOrd_day]
      have hp := toOrd_prev_month y m hm0 hm1
      linarith
    · have hc : daysInMonth y m < x := by omega
      rw [hfuel]
      simp only [normD, if_neg hb, if_pos hc]
      have hm2b : (0 ≤ (if m = 11 then 0 else m + 1)) ∧ (if m = 11 then 0 else m + 1) ≤ 11 := by
        split_ifs <;> omega
      rcases daysInMonth_bounds (if m = 11 then y + 1 else y) (if m = 11 then 0 else m + 1)
        hm2b.1 hm2b.2 with ⟨hlo2, hhi2⟩
      have hx2a : 1 ≤ x - daysInMonth y m := by omega
      have hx2b : x - daysInMonth y m ≤
          daysInMonth (if m = 11 then y + 1 else y) (if m = 11 then 0 else m + 1) := by
        omega
      rw [if_neg (by omega), if_neg (by omega)]
      refine ⟨⟨hm2b.1, hm2b.2, hx2a, hx2b⟩, ?_⟩
      rw [toOrd_day]
      have hp := toOrd_next_month_first y m hm0 hm1
      linarith

theorem jsSetDate_spec (dt : JSDate) (x : Int) (h : Normalized dt) (hx0 : -26 ≤ x)
    (hx1 : x ≤ daysInMonth dt.year dt.month + 28) :
    Normalized (jsSetDate dt x) ∧
      toOrd (jsSetDate dt x) = toOrd ⟨dt.year, dt.month, 1⟩ + (x - 1) :=
  mkDate_spec dt.year dt.month x h.1 h.2.1 hx0 hx1

theorem nextDay_spec (dt : JSDate) (h : Normalized dt) :
    Normalized (nextDay dt) ∧ toOrd (nextDay dt) = toOrd dt + 1 := by
  rcases h with ⟨hm0, hm1, hd0, hd1⟩
  have hs := jsSetDate_spec dt (dt.day + 1) ⟨hm0, hm1, hd0, hd1⟩ (by omega) (by omega)
  refine ⟨hs.1, ?_⟩
  have hdt : toOrd dt = toOrd ⟨dt.year, dt.month, 1⟩ + (dt.day - 1) := toOrd_day _ _ _
  rw [show nextDay dt = jsSetDate dt (dt.day + 1) from rfl, hs.2]
  linarith

theorem startOfMonth_spec (dt : JSDate) (hm0 : 0 ≤ dt.month) (hm1 : dt.month ≤ 11) :
    startOfMonth dt = ⟨dt.year, dt.month, 1⟩ := by
  have hb := daysInMonth_bounds dt.year dt.month hm0 hm1
  have h1 : dt.year + dt.month / 12 = dt.year := by omega
  have h2 : dt.month % 12 = dt.month := by omega
  rw [startOfMonth, mkDate, h1, h2]
  exact normD_inRange _ _ _ _ (by omega) (by omega)

theorem mkDate_zero (y m : Int) (hm0 : 0 ≤ m) (hm1 : m ≤ 11) :
    mkDate y m 0 = ⟨if m = 0 then y - 1 else y, if m = 0 then 11 else m - 1,
      daysInMonth (if m = 0 then y - 1 else y) (if m = 0 then 11 else m - 1)⟩ := by
  have h1 : y + m / 12 = y := by omega
  have h2 : m % 12 = m := by omega
  rw [mkDate, h1, h2]
  have hm2b : (0 ≤ (if m = 0 then 11 else m - 1)) ∧ (if m = 0 then 11 else m - 1) ≤ 11 := by
    split_ifs <;> omega
  rcases daysInMonth_bounds (if m = 0 then y - 1 else y) (if m = 0 then 11 else m - 1)
    hm2b.1 hm2b.2 with ⟨hlo2, hhi2⟩
  rw [show (0 : Int).natAbs + 2 = 1 + 1 from rfl]
  simp only [normD, if_pos (show (0 : Int) < 1 by omega)]
  rw [if_neg (by omega), if_neg (by omega)]
  norm_num

theorem mkDate_month_norm (y m d : Int) :
    mkDate y m d = mkDate (y + m / 12) (m % 12) d := by
  rw [mkDate, mkDate]
  have h1 : (y + m / 12) + (m % 12) / 12 = y + m / 12 := by omega
  have h2 : (m % 12) % 12 = m % 12 := by omega
  rw [h1, h2]

theorem endOfMonth_spec (dt : JSDate) (hm0 : 0 ≤ dt.month) (hm1 : dt.month ≤ 11) :
    endOfMonth dt = ⟨dt.year, dt.month, daysInMonth dt.year dt.month⟩ := by
  rw [endOfMonth, mkDate_month_norm]
  by_cases hm : dt.month = 11
  · rw [hm]
    have h1 : dt.year + (11 + 1) / 12 = dt.year + 1 := by omega
    have h2 : ((11 : Int) + 1) % 12 = 0 := by omega
    rw [h1, h2, mkDate_zero (dt.year + 1) 0 (by omega) (by omega)]
    simp only [reduceIte]
    have hy : dt.year + 1 - 1 = dt.year := by ring
    rw [hy]
  · have h1 : dt.year + (dt.month + 1) / 12 = dt.year := by omega
    have h2 : (dt.month + 1) % 12 = dt.month + 1 := by omega
    rw [h1, h2, mkDate_zero dt.year (dt.month + 1) (by omega) (by omega)]
    have hne : ¬ (dt.month + 1 = 0) := by omega
    simp only [if_neg hne]
    have hmm : dt.month + 1 - 1 = dt.month := by ring
    rw [hmm]

theorem buildRow_spec (n : Nat) : ∀ (cur : JSDate), Normalized cur →
    (buildRow n cur).1.map toOrd = (List.range n).map (fun i : Nat => toOrd cur + (i : Int)) ∧
    Normalized (buildRow n cur).2 ∧
    toOrd (buildRow n cur).2 = toOrd cur + n := by
  induction n with
  | zero =>
    intro cur h
    exact ⟨rfl, h, by simp [buildRow]⟩
  | succ n ih =>
    intro cur h
    rcases nextDay_spec cur h with ⟨hn, ho⟩
    rcases ih (nextDay cur) hn with ⟨h1, h2, h3⟩
    refine ⟨?_, ?_, ?_⟩
    · simp only [buildRow, List.map_cons, h1, ho]
      rw [List.range_succ_eq_map, List.map_cons, List.map_map]
      congr 1
      · simp
      · apply List.map_congr_left
        intro i _
        simp only [Function.comp]
        push_cast
        ring
    · simpa [buildRow] using h2
    · simp only [buildRow]
      rw [h3, ho]
      push_cast
      ring

theorem buildRows_spec (r : Nat) : ∀ (cur : JSDate), Normalized cur →
    (buildRows r cur).length = r ∧
    (∀ row ∈ buildRows r cur, row.length = 7) ∧
    (buildRows r cur).flatten.map toOrd =
      (List.range (7 * r)).map (fun i : Nat => toOrd cur + (i : Int)) := by
  induction r with
  | zero =>
    intro cur _
    exact ⟨rfl, by simp [buildRows], by simp [buildRows]⟩
  | succ r ih =>
    intro cur h
    rcases buildRow_spec 7 cur h with ⟨hmap, hnorm, hord⟩
    rcases ih (buildRow 7 cur).2 hnorm with ⟨hlen, hrows, hflat⟩
    refine ⟨?_, ?_, ?_⟩
    · simp [buildRows, hlen]
    · intro row hrow
      simp only [buildRows] at hrow
      rcases List.mem_cons.mp hrow with h' | h'
      · subst h'
        have hl := congrArg List.length hmap
        simpa using hl
      · exact hrows row h'
    · simp only [buildRows, List.flatten_cons, List.map_append, hmap, hflat, hord]
      rw [show 7 * (r + 1) = 7 + 7 * r from by ring, List.range_add, List.map_append]
      congr 1
      rw [List.map_map]
      apply List.map_congr_left
      intro i _
      simp only [Function.comp]
      push_cast
      ring

theorem count_progression (F : Int) (n : Nat) (o : Int) (h1 : F ≤ o) (h2 : o < F + n) :
    ((List.range n).map (fun i : Nat => F + (i : Int))).count o = 1 := by
  apply List.count_eq_one_of_mem
  · refine List.Nodup.map ?_ (List.nodup_range n)
    intro a b hab
    have hab' : F + (a : Int) = F + (b : Int) := hab
    omega
  · refine List.mem_map.mpr ⟨(o - F).toNat, ?_, ?_⟩
    · rw [List.mem_range]
      omega
    · omega

theorem head?_range (n : Nat) (h : 0 < n) : (List.range n).head? = some 0 := by
  cases n with
  | zero => omega
  | succ k => rw [List.range_succ_eq_map]; rfl

/-- C7: for every (normalized) anchor date, the calendar grid consists
of `⌈(startIdx + monthLength) / 7⌉` rows of seven cells; the flattened
cells carry consecutive day ordinals starting `startIdx` days before the
first of the anchor month; the first cell is the Monday on or before the
1st; the row count is the least number of 7-day rows covering through
the last day of the month; and every day ordinal of the anchor month
occurs exactly once in the grid. -/
theorem daysMatrix_correct (anchor : JSDate) (h : Normalized anchor) :
    (daysMatrix anchor).length =
      (((getDay ⟨anchor.year, anchor.month, 1⟩ + 6) % 7 +
        daysInMonth anchor.year anchor.month + 6) / 7).toNat ∧
    (∀ row ∈ daysMatrix anchor, row.length = 7) ∧
    ((daysMatrix anchor).flatten.map toOrd =
      (List.range (7 * (daysMatrix anchor).length)).map
        (fun i : Nat => toOrd ⟨anchor.year, anchor.month, 1⟩ -
          (getDay ⟨anchor.year, anchor.month, 1⟩ + 6) % 7 + (i : Int))) ∧
    (∀ c, (daysMatrix anchor).flatten.head? = some c →
      getDay c = 1 ∧ toOrd c ≤ toOrd ⟨anchor.year, anchor.month, 1⟩ ∧
      toOrd ⟨anchor.year, anchor.month, 1⟩ - toOrd c < 7) ∧
    ((getDay ⟨anchor.year, anchor.month, 1⟩ + 6) % 7 +
        daysInMonth anchor.year anchor.month ≤ 7 * ((daysMatrix anchor).length : Int) ∧
      7 * (((daysMatrix anchor).length : Int) - 1) <
        (getDay ⟨anchor.year, anchor.month, 1⟩ + 6) % 7 +
          daysInMonth anchor.year anchor.month) ∧
    (∀ o : Int, toOrd ⟨anchor.year, anchor.month, 1⟩ ≤ o →
      o ≤ toOrd ⟨anchor.year, anchor.month, 1⟩ +
        daysInMonth anchor.year anchor.month - 1 →
      ((daysMatrix anchor).flatten.map toOrd).count o = 1) := by
  rcases h with ⟨hm0, hm1, hd0, hd1⟩
  have hb := daysInMonth_bounds anchor.year anchor.month hm0 hm1
  have hstart := startOfMonth_spec anchor hm0 hm1
  have hend := endOfMonth_spec anchor hm0 hm1
  have hN1 : Normalized ⟨anchor.year, anchor.month, 1⟩ :=
    ⟨hm0, hm1, le_refl 1,
      by show (1 : Int) ≤ daysInMonth anchor.year anchor.month; omega⟩
  have hw : getDay ⟨anchor.year, anchor.month, 1⟩ =
      (toOrd ⟨anchor.year, anchor.month, 1⟩ + 1) % 7 := rfl
  have hsb : 0 ≤ (getDay ⟨anchor.year, anchor.month, 1⟩ + 6) % 7 ∧
      (getDay ⟨anchor.year, anchor.month, 1⟩ + 6) % 7 < 7 := by omega
  rcases jsSetDate_spec ⟨anchor.year, anchor.month, 1⟩
      (1 - (getDay ⟨anchor.year, anchor.month, 1⟩ + 6) % 7) hN1 (by omega)
      (by show 1 - (getDay ⟨anchor.year, anchor.month, 1⟩ + 6) % 7 ≤
            daysInMonth anchor.year anchor.month + 28
          omega)
    with ⟨hfn, hford0⟩
  have hford : toOrd (jsSetDate ⟨anchor.year, anchor.month, 1⟩
      (1 - (getDay ⟨anchor.year, anchor.month, 1⟩ + 6) % 7)) =
      toOrd ⟨anchor.year, anchor.month, 1⟩ +
        (1 - (getDay ⟨anchor.year, anchor.month, 1⟩ + 6) % 7 - 1) := hford0
  have hDM : daysMatrix anchor =
      buildRows ((((getDay ⟨anchor.year, anchor.month, 1⟩ + 6) % 7 +
          daysInMonth anchor.year anchor.month + 6) / 7).toNat)
        (jsSetDate ⟨anchor.year, anchor.month, 1⟩
          (1 - (getDay ⟨anchor.year, anchor.month, 1⟩ + 6) % 7)) := by
    unfold daysMatrix
    rw [hstart, hend]
    rfl
  rcases buildRows_spec
      ((((getDay ⟨anchor.year, anchor.month, 1⟩ + 6) % 7 +
        daysInMonth anchor.year anchor.month + 6) / 7).toNat)
      (jsSetDate ⟨anchor.year, anchor.month, 1⟩
        (1 - (getDay ⟨anchor.year, anchor.month, 1⟩ + 6) % 7)) hfn
    with ⟨hlen, hrows, hflat⟩
  refine ⟨?_, ?_, ?_, ?_, ?_, ?_⟩
  · rw [hDM]; exact hlen
  · intro row hrow
    rw [hDM] at hrow
    exact hrows row hrow
  · rw [hDM, hflat, hlen]
    apply List.map_congr_left
    intro i _
    omega
  · intro c hc
    rw [hDM] at hc
    have hmap := congrArg List.head? hflat
    rw [List.head?_map, List.head?_map, hc] at hmap
    have hpos : 0 < 7 * (((getDay ⟨anchor.year, anchor.month, 1⟩ + 6) % 7 +
        daysInMonth anchor.year anchor.month + 6) / 7).toNat := by omega
    rw [head?_range _ hpos] at hmap
    simp at hmap
    have hc0 : toOrd c = toOrd (jsSetDate ⟨anchor.year, anchor.month, 1⟩
        (1 - (getDay ⟨anchor.year, anchor.month, 1⟩ + 6) % 7)) := hmap
    have hgc : getDay c = (toOrd c + 1) % 7 := rfl
    refine ⟨?_, ?_, ?_⟩
    · rw [hgc]; omega
    · omega
    · omega
  · rw [hDM, hlen]
    constructor
    · omega
    · omega
  · intro o ho1 ho2
    rw [hDM, hflat]
    apply count_progression
    · omega
    · omega

/-- Witness for C7 at October 2025: the grid has the computed number of
rows, and every row has seven cells. -/
theorem daysMatrix_correct_witness :
    (daysMatrix ⟨2025, 9, 12⟩).length =
      (((getDay ⟨2025, 9, 1⟩ + 6) % 7 + daysInMonth 2025 9 + 6) / 7).toNat ∧
    ∀ row ∈ daysMatrix ⟨2025, 9, 12⟩, row.length = 7 := by
  have h := daysMatrix_correct ⟨2025, 9, 12⟩ (by unfold Normalized; decide)
  exact ⟨h.1, h.2.1⟩
